import Mathlib

/-!
Verification of the foiacquire crawl engine against its specification.

The Rust source is shallowly embedded: SQLite tables become Lean lists of
row structures, each repository method becomes a pure function from the
table state to a result and a new table state (one function application per
SQL transaction, matching SQLite's serializable isolation), and machine
integers become `Nat`/`Int` with explicit `% 2 ^ 64` where overflow can
occur.  Timestamps are modelled as integers; the Rust code stores RFC 3339
strings produced by a single formatter, whose lexicographic order agrees
with chronological order, so integer comparison is a faithful model.
-/

namespace Foiacquire

/-- Status of a crawl frontier row (`UrlStatus` in `models`). The database
stores the lowercase string form; the enum models it directly. -/
inductive UrlStatus where
  | discovered
  | fetching
  | fetched
  | failed
  | exhausted
deriving DecidableEq, Repr

/-- A row of the `crawl_urls` table (`CrawlUrlRow` in
`src/repository/crawl/types.rs`).  The SQLite `id` column is omitted: no
modelled operation reads it.  Timestamps are integers (seconds). -/
structure CrawlUrlRow where
  url : String
  source_id : String
  status : UrlStatus
  discovery_method : String
  parent_url : Option String
  discovery_context : String
  depth : Nat
  discovered_at : Int
  fetched_at : Option Int
  retry_count : Nat
  last_error : Option String
  next_retry_at : Option Int
  etag : Option String
  last_modified : Option String
  content_hash : Option String
  document_id : Option String
deriving DecidableEq, Repr

/-- A row of the append-only `crawl_requests` audit table.  Only the
`source_id` key is inspected by the modelled operations
(`clear_source` deletes by it); the remaining columns are kept as one
opaque payload string. -/
structure CrawlRequestRow where
  source_id : String
  payload : String
deriving DecidableEq, Repr

/-- A row of the `crawl_config` table: stored config hash per source. -/
structure CrawlConfigRow where
  source_id : String
  config_hash : String
deriving DecidableEq, Repr

/-- The durable crawl state: the three tables the modelled repository
operations touch. -/
structure Frontier where
  urls : List CrawlUrlRow
  requests : List CrawlRequestRow
  configs : List CrawlConfigRow
deriving DecidableEq, Repr

/-! ## Backoff math (`src/ocr/api_rate_limit.rs`) -/

/-- `MAX_BACKOFF_SECS = 60` in `src/ocr/api_rate_limit.rs`. -/
def MAX_BACKOFF_SECS : Nat := 60

/-- `backoff_delay(attempt, base_ms)` from `src/ocr/api_rate_limit.rs`:
`base_ms * 2u64.pow(attempt)` then `.min(MAX_BACKOFF_SECS * 1000)`.
The multiplication and power are `u64` operations; release-mode Rust wraps
on overflow, modelled by the explicit `% 2 ^ 64`.  Result in
milliseconds. -/
def backoff_delay (attempt : Nat) (base_ms : Nat) : Nat :=
  min ((base_ms * 2 ^ attempt) % 2 ^ 64) (MAX_BACKOFF_SECS * 1000)

/-! ## Crawl frontier operations
(`src/repository/crawl/async_claims.rs`, `async_urls.rs`, `async_config.rs`)
Each repository method runs its SQL inside one SQLite transaction; SQLite
serializes transactions, so each method is one pure function from the
table state to the result and the next table state. -/

/-- Does a row satisfy the optional `source_id` filter of the claim
queries (`WHERE source_id = ?` when a filter is given, no clause
otherwise)? -/
def matchesSource (sid : Option String) (r : CrawlUrlRow) : Prop :=
  match sid with
  | none => True
  | some s => r.source_id = s

instance matchesSource.instDecidable (sid : Option String) (r : CrawlUrlRow) :
    Decidable (matchesSource sid r) :=
  match sid with
  | none => isTrue trivial
  | some s => inferInstanceAs (Decidable (r.source_id = s))

/-- The claim ordering `ORDER BY depth ASC, discovered_at ASC`. -/
def claimLe (a b : CrawlUrlRow) : Prop :=
  a.depth < b.depth ∨ (a.depth = b.depth ∧ a.discovered_at ≤ b.discovered_at)

instance claimLe.instDecidableRel : DecidableRel claimLe := fun a b => by
  unfold claimLe; infer_instance

instance claimLe.instIsTotal : IsTotal CrawlUrlRow claimLe :=
  ⟨by intro a b; unfold claimLe; omega⟩

instance claimLe.instIsTrans : IsTrans CrawlUrlRow claimLe :=
  ⟨by intro a b c; unfold claimLe; omega⟩

theorem claimLe.refl (a : CrawlUrlRow) : claimLe a a :=
  Or.inr ⟨rfl, le_refl _⟩

/-- The rows eligible for claiming:
`WHERE (source filter) AND status = 'discovered'`. -/
def claimCandidates (sid : Option String) (urls : List CrawlUrlRow) :
    List CrawlUrlRow :=
  urls.filter fun r => decide (r.status = .discovered ∧ matchesSource sid r)

/-- The `UPDATE crawl_urls SET status = 'fetching'
WHERE source_id = ? AND url = ?` statement of the claim methods. -/
def setFetchingByKey (sid url : String) (l : List CrawlUrlRow) :
    List CrawlUrlRow :=
  l.map fun r =>
    if r.source_id = sid ∧ r.url = url then { r with status := .fetching } else r

/-- `claim_pending_url` (`src/repository/crawl/async_claims.rs`): inside one
transaction, select the first row with status `discovered` matching the
optional source filter, ordered by `(depth ASC, discovered_at ASC)`
(`LIMIT 1` of the ordered query, modelled as the head of a stable sort),
flip it to `fetching`, and return it with status `Fetching`; otherwise
return `None` leaving the tables untouched. -/
def claim_pending_url (source_id : Option String) (f : Frontier) :
    Option CrawlUrlRow × Frontier :=
  match (List.insertionSort claimLe (claimCandidates source_id f.urls)).head? with
  | none => (none, f)
  | some r =>
      (some { r with status := .fetching },
       { f with urls := setFetchingByKey r.source_id r.url f.urls })

/-- `claim_pending_urls` (`src/repository/crawl/async_claims.rs`): one
transaction selecting up to `limit` discovered rows in claim order, then
flipping each selected row to `fetching`.  `LIMIT ?` is modelled by
`List.take limit`; the `u32 → i32` cast in the source is the identity for
every limit below `2 ^ 31`. -/
def claim_pending_urls (source_id : Option String) (limit : Nat)
    (f : Frontier) : List CrawlUrlRow × Frontier :=
  let rows := (List.insertionSort claimLe (claimCandidates source_id f.urls)).take limit
  (rows.map fun r => { r with status := .fetching },
   { f with urls := rows.foldl (fun acc r => setFetchingByKey r.source_id r.url acc) f.urls })

/-- `add_url` (`src/repository/crawl/async_urls.rs`): `INSERT OR IGNORE`
keyed by `(source_id, url)` (the table's unique constraint), returning
whether a row was inserted.  Only the nine listed columns are inserted;
the remaining columns take their SQL defaults (`NULL`). -/
def add_url (cu : CrawlUrlRow) (f : Frontier) : Bool × Frontier :=
  if f.urls.any fun r => decide (r.source_id = cu.source_id ∧ r.url = cu.url) then
    (false, f)
  else
    (true,
     { f with urls := f.urls ++
        [{ url := cu.url, source_id := cu.source_id, status := cu.status,
           discovery_method := cu.discovery_method, parent_url := cu.parent_url,
           discovery_context := cu.discovery_context, depth := cu.depth,
           discovered_at := cu.discovered_at, fetched_at := none,
           retry_count := cu.retry_count, last_error := none,
           next_retry_at := none, etag := none, last_modified := none,
           content_hash := none, document_id := none }] })

/-- `mark_url_for_refresh` (`src/repository/crawl/async_urls.rs`):
`UPDATE crawl_urls SET status = 'discovered' WHERE source_id = ? AND
url = ?`.  No other column appears in the statement. -/
def mark_url_for_refresh (sid url : String) (f : Frontier) : Frontier :=
  { f with urls := f.urls.map fun r =>
      if r.source_id = sid ∧ r.url = url then { r with status := .discovered } else r }

/-- The exhaustion cool-off: `chrono::Duration::days(70)`, in seconds
(timestamps are modelled in seconds). -/
def exhaustionCooloffSecs : Int := 70 * 86400

/-- The retry ordering `ORDER BY retry_count ASC, discovered_at ASC`. -/
def retryLe (a b : CrawlUrlRow) : Prop :=
  a.retry_count < b.retry_count ∨
    (a.retry_count = b.retry_count ∧ a.discovered_at ≤ b.discovered_at)

instance retryLe.instDecidableRel : DecidableRel retryLe := fun a b => by
  unfold retryLe; infer_instance

instance retryLe.instIsTotal : IsTotal CrawlUrlRow retryLe :=
  ⟨by intro a b; unfold retryLe; omega⟩

instance retryLe.instIsTrans : IsTrans CrawlUrlRow retryLe :=
  ⟨by intro a b c; unfold retryLe; omega⟩

/-- SQL `x IS NULL OR x <= bound` over a nullable integer column. -/
def nullOrLe (o : Option Int) (bound : Int) : Prop :=
  match o with
  | none => True
  | some t => t ≤ bound

instance nullOrLe.instDecidable (o : Option Int) (bound : Int) :
    Decidable (nullOrLe o bound) :=
  match o with
  | none => isTrue trivial
  | some t => inferInstanceAs (Decidable (t ≤ bound))

/-- SQL `x IS NULL OR x < bound` over a nullable integer column. -/
def nullOrLt (o : Option Int) (bound : Int) : Prop :=
  match o with
  | none => True
  | some t => t < bound

instance nullOrLt.instDecidable (o : Option Int) (bound : Int) :
    Decidable (nullOrLt o bound) :=
  match o with
  | none => isTrue trivial
  | some t => inferInstanceAs (Decidable (t < bound))

/-- A non-null column compared with `<=` (NULL compares false in SQL). -/
def someLe (o : Option Int) (bound : Int) : Prop :=
  match o with
  | none => False
  | some t => t ≤ bound

instance someLe.instDecidable (o : Option Int) (bound : Int) :
    Decidable (someLe o bound) :=
  match o with
  | none => isFalse not_false
  | some t => inferInstanceAs (Decidable (t ≤ bound))

/-- A non-null column compared with `<` (NULL compares false in SQL). -/
def someLt (o : Option Int) (bound : Int) : Prop :=
  match o with
  | none => False
  | some t => t < bound

instance someLt.instDecidable (o : Option Int) (bound : Int) :
    Decidable (someLt o bound) :=
  match o with
  | none => isFalse not_false
  | some t => inferInstanceAs (Decidable (t < bound))

/-- The `WHERE` clause of `get_retryable_urls`
(`src/repository/crawl/async_claims.rs`): the row belongs to the source
and is either `failed` with `next_retry_at IS NULL OR next_retry_at <= now`
or `exhausted` with `next_retry_at IS NULL OR next_retry_at < now - 70d`. -/
def codeRetryable (sid : String) (now : Int) (r : CrawlUrlRow) : Prop :=
  r.source_id = sid ∧
    ((r.status = .failed ∧ nullOrLe r.next_retry_at now) ∨
     (r.status = .exhausted ∧
        nullOrLt r.next_retry_at (now - exhaustionCooloffSecs)))

instance codeRetryable.instDecidable (sid : String) (now : Int)
    (r : CrawlUrlRow) : Decidable (codeRetryable sid now r) := by
  unfold codeRetryable; infer_instance

/-- The claim's own reading of `retryable` (used only to compare with the
source-derived `codeRetryable`): Failed rows with `next_retry_at ≤ now`,
or Exhausted rows whose `next_retry_at` lies more than 70 days in the
past.  It has no clause for rows whose `next_retry_at` is unset. -/
def specRetryable (sid : String) (now : Int) (r : CrawlUrlRow) : Prop :=
  r.source_id = sid ∧
    ((r.status = .failed ∧ someLe r.next_retry_at now) ∨
     (r.status = .exhausted ∧
        someLt r.next_retry_at (now - exhaustionCooloffSecs)))

instance specRetryable.instDecidable (sid : String) (now : Int)
    (r : CrawlUrlRow) : Decidable (specRetryable sid now r) := by
  unfold specRetryable; infer_instance

/-- `get_retryable_urls` (`src/repository/crawl/async_claims.rs`):
filter by `codeRetryable`, `ORDER BY retry_count ASC, discovered_at ASC`,
`LIMIT ?` (modelled by `take`; the `u32 → i32` cast is the identity below
`2 ^ 31`). -/
def get_retryable_urls (sid : String) (limit : Nat) (now : Int)
    (f : Frontier) : List CrawlUrlRow :=
  (List.insertionSort retryLe
    (f.urls.filter fun r => decide (codeRetryable sid now r))).take limit

/-- Is the row in one of the pending statuses cleared by `clear_source`
(`status IN ('discovered', 'fetching', 'failed')`)? -/
def pendingCleared (r : CrawlUrlRow) : Prop :=
  r.status = .discovered ∨ r.status = .fetching ∨ r.status = .failed

instance pendingCleared.instDecidable (r : CrawlUrlRow) :
    Decidable (pendingCleared r) := by
  unfold pendingCleared; infer_instance

/-- `clear_source` (`src/repository/crawl/async_urls.rs`), the spec's
`clear_pending`: delete the source's rows in
`('discovered', 'fetching', 'failed')` from `crawl_urls` and all the
source's rows from `crawl_requests`. -/
def clear_source (sid : String) (f : Frontier) : Frontier :=
  { f with
    urls := f.urls.filter fun r => !decide (r.source_id = sid ∧ pendingCleared r),
    requests := f.requests.filter fun q => !decide (q.source_id = sid) }

/-- Count of the source's rows in `('discovered', 'fetching')`, the
`pending_count` query of `check_config_changed`. -/
def pendingCount (sid : String) (urls : List CrawlUrlRow) : Nat :=
  (urls.filter fun r => decide (r.source_id = sid ∧
    (r.status = .discovered ∨ r.status = .fetching))).length

/-- `check_config_changed` (`src/repository/crawl/async_config.rs`).
`current_hash` stands for the hex SHA-256 of the serialized config, which
the model takes as an input rather than recomputing; the function only
compares it for equality.  Returns `(has_changed, should_clear)` where
`should_clear = has_changed ∧ pending_count > 0`. -/
def check_config_changed (sid : String) (current_hash : String)
    (f : Frontier) : Bool × Bool :=
  let stored := (f.configs.find? fun c => c.source_id == sid).map
    CrawlConfigRow.config_hash
  let has_changed : Bool := !(stored == some current_hash)
  (has_changed, has_changed && decide (0 < pendingCount sid f.urls))

/-! ## Serialized claim traces (for the claim-exclusivity law)
SQLite gives the claim transactions serializable isolation (a reader that
raced a committed writer cannot commit its own conflicting write), so any
interleaving of concurrent claimers is equivalent to some serial order of
whole claim transactions. -/

/-- One claim call issued by some concurrent claimer. -/
inductive ClaimOp where
  | one (source_id : Option String)
  | many (source_id : Option String) (limit : Nat)

/-- Run one claim transaction, returning the list of URLs the call
returned and the frontier it committed. -/
def applyClaimOp (op : ClaimOp) (f : Frontier) : List CrawlUrlRow × Frontier :=
  match op with
  | .one sid =>
      match claim_pending_url sid f with
      | (none, f2) => ([], f2)
      | (some u, f2) => ([u], f2)
  | .many sid limit => claim_pending_urls sid limit f

/-- The per-call outputs of a serialized sequence of claim transactions. -/
def runClaimOps : List ClaimOp → Frontier → List (List CrawlUrlRow)
  | [], _ => []
  | op :: rest, f =>
      (applyClaimOp op f).1 :: runClaimOps rest (applyClaimOp op f).2

/-- Does a claim call's output contain the URL `(sid, url)`? -/
def returnsUrl (sid url : String) (out : List CrawlUrlRow) : Bool :=
  out.any fun r => decide (r.source_id = sid ∧ r.url = url)

/-! ## Static file serving (`crates/foia-server/src/handlers/static_files.rs`) -/

/-- `String::contains`/`Path` component helpers, written as structural
recursion on the character list so that concrete instances evaluate.
`splitSlash` splits a character list at `/` (the component split that
`Path::join` applies to a relative path string). -/
def splitSlash : List Char → List (List Char)
  | [] => [[]]
  | c :: cs =>
      if c = '/' then [] :: splitSlash cs
      else match splitSlash cs with
        | [] => [[c]]
        | w :: ws => (c :: w) :: ws

/-- The components of a relative path string. -/
def pathComponents (path : String) : List String :=
  (splitSlash path.toList).map List.asString

/-- `path.starts_with('/')`. -/
def isAbsolutePath (path : String) : Bool :=
  match path.toList with
  | [] => false
  | c :: _ => c = '/'

/-- Outcome of `serve_file`, keeping the canonical path whose bytes are
served.  Response headers are not modelled: the claim concerns only which
file's bytes can be returned. -/
inductive ServeResult where
  | internalError
  | notFound
  | ok (canonical_path : List String) (content : List Nat)
deriving DecidableEq, Repr

/-- `serve_file` (`crates/foia-server/src/handlers/static_files.rs`).
Filesystem paths are lists of components.  The operating system is
abstracted by two arbitrary functions: `canon` models
`Path::canonicalize` (resolution of `.`, `..` and symlinks, `none` on
error) and `readFile` models `tokio::fs::read`.  `Path::starts_with` is
the component-wise prefix test.  Mirrors the handler's order of checks:
canonicalize `documents_dir` (500 on failure); reject paths containing
the substring `..` or starting with `/`; canonicalize the joined path
(404 on failure); reject canonical files not under the canonical
documents dir; read the canonical file (500 on failure).
The handler's straight-line body is split into one definition per step
(`servePrefixCheck`, `serveResolved`, `serveInner`, `serve_file`), composed
in the source's order. -/
def servePrefixCheck (readFile : List String → Option (List Nat))
    (canonical_docs_dir canonical_file : List String) : ServeResult :=
  if canonical_docs_dir.isPrefixOf canonical_file then
    match readFile canonical_file with
    | none => .internalError
    | some content => .ok canonical_file content
  else .notFound

def serveResolved (canon : List String → Option (List String))
    (readFile : List String → Option (List Nat))
    (canonical_docs_dir : List String) (path : String) : ServeResult :=
  match canon (canonical_docs_dir ++ pathComponents path) with
  | none => .notFound
  | some canonical_file =>
      servePrefixCheck readFile canonical_docs_dir canonical_file

def serveInner (canon : List String → Option (List String))
    (readFile : List String → Option (List Nat))
    (canonical_docs_dir : List String) (path : String) : ServeResult :=
  if decide ("..".toList <:+: path.toList) || isAbsolutePath path then .notFound
  else serveResolved canon readFile canonical_docs_dir path

def serve_file (canon : List String → Option (List String))
    (readFile : List String → Option (List Nat))
    (documents_dir : List String) (path : String) : ServeResult :=
  match canon documents_dir with
  | none => .internalError
  | some canonical_docs_dir => serveInner canon readFile canonical_docs_dir path

/-! ## SQLite rate limiter (`src/scrapers/rate_limit_sqlite.rs`) -/

/-- `DomainRateState` as stored in the `rate_limit_domains` table.
The struct itself is declared in `rate_limit_backend.rs`, which is not
part of this source snapshot; its fields are those of the spec's
DomainRateState entity and of the table schema in
`rate_limit_sqlite.rs`. -/
structure DomainRateState where
  domain : String
  current_delay_ms : Nat
  last_request_at : Option Int
  consecutive_successes : Nat
  in_backoff : Bool
  total_requests : Nat
  rate_limit_hits : Nat
deriving DecidableEq, Repr

/-- `DomainRateState::new(domain, base_delay_ms)`: the row the backends
insert for an unseen domain (matching the table's column defaults). -/
def DomainRateState.new (domain : String) (base_delay_ms : Nat) :
    DomainRateState :=
  ⟨domain, base_delay_ms, none, 0, false, 0, 0⟩

/-- Modelled from the spec: `DomainRateState::time_until_ready` is defined
in `rate_limit_backend.rs`, which is missing from this snapshot.  Per the
spec, `acquire` must "compute the wait required so that the soonest legal
request time is respected", the soonest legal start time being
`last_request_at + current_delay_ms`; with no recorded request the wait
is zero.  The caller's clock reading `now_ms` is passed in explicitly.
Returns milliseconds (a `Duration`, hence non-negative). -/
def DomainRateState.time_until_ready (s : DomainRateState) (now_ms : Int) :
    Nat :=
  match s.last_request_at with
  | none => 0
  | some last => (last + (s.current_delay_ms : Int) - now_ms).toNat

/-- `SELECT ... FROM rate_limit_domains WHERE domain = ?`. -/
def findDomain (domain : String) (tbl : List DomainRateState) :
    Option DomainRateState :=
  tbl.find? fun s => decide (s.domain = domain)

/-- `acquire` (`src/scrapers/rate_limit_sqlite.rs`, the same logic in the
sync and async backends): one `BEGIN IMMEDIATE` transaction that reads the
domain row (inserting a fresh one with the base delay when absent),
computes the wait with `time_until_ready`, and writes
`last_request_at = now_ms + wait` — the reserved start time — while
incrementing `total_requests`.  Returns the wait in milliseconds and the
committed table. -/
def acquire (domain : String) (base_delay_ms : Nat) (now_ms : Int)
    (tbl : List DomainRateState) : Nat × List DomainRateState :=
  match findDomain domain tbl with
  | some s =>
      let wait := s.time_until_ready now_ms
      (wait, tbl.map fun r =>
        if r.domain = domain then
          { r with last_request_at := some (now_ms + wait),
                   total_requests := r.total_requests + 1 }
        else r)
  | none =>
      (0, (tbl ++ [DomainRateState.new domain base_delay_ms]).map fun r =>
        if r.domain = domain then
          { r with last_request_at := some (now_ms + 0),
                   total_requests := r.total_requests + 1 }
        else r)

/-- The reserved start times (`now_ms + wait`, the value each call writes
into `last_request_at`) of a serialized sequence of `acquire` calls for
one domain, given the clock reading each call captured before its
transaction. -/
def acquireReservations (domain : String) (base_delay_ms : Nat) :
    List Int → List DomainRateState → List Int
  | [], _ => []
  | now :: rest, tbl =>
      (now + (acquire domain base_delay_ms now tbl).1) ::
        acquireReservations domain base_delay_ms rest
          (acquire domain base_delay_ms now tbl).2

/-- The delay every `acquire` of a trace for `domain` uses: the stored
`current_delay_ms` when the row exists, the base delay otherwise
(`acquire` itself never changes `current_delay_ms`). -/
def effectiveDelay (domain : String) (base_delay_ms : Nat)
    (tbl : List DomainRateState) : Nat :=
  match findDomain domain tbl with
  | some s => s.current_delay_ms
  | none => base_delay_ms

/-! ## Rate limiter persistence (`src/scrapers/rate_limiter/persistence.rs`) -/

/-- The in-memory per-domain limiter state (`DomainState` in
`rate_limiter/domain_state.rs`; its fields appear in the struct literal
built by `load_rate_limit_state`).  `current_delay` is a `Duration`,
modelled in milliseconds; `recent_403s` keeps event timestamps. -/
structure DomainState where
  current_delay : Nat
  last_request : Option Int
  consecutive_successes : Nat
  recent_403s : List Int
  in_backoff : Bool
  total_requests : Nat
  rate_limit_hits : Nat
deriving DecidableEq, Repr

/-- The in-memory `RateLimiter`: its domain map (modelled as an
association list in iteration order) and `config.base_delay` in
milliseconds. -/
structure RateLimiter where
  domains : List (String × DomainState)
  base_delay : Nat
deriving DecidableEq, Repr

/-- A row of the `rate_limit_state` table (the `updated_at` column is
written but never read back and is not modelled). -/
structure SavedRow where
  current_delay_ms : Nat
  in_backoff : Bool
  total_requests : Nat
  rate_limit_hits : Nat
deriving DecidableEq, Repr

/-- `INSERT OR REPLACE` / `HashMap::insert` on an association list keyed
by a string (both tables have the domain as primary key, so at most one
entry per key exists): replace the existing entry in place, append
otherwise. -/
def upsert {β : Type} (d : String) (v : β) : List (String × β) → List (String × β)
  | [] => [(d, v)]
  | p :: t => if p.1 = d then (d, v) :: t else p :: upsert d v t

/-- Lookup in an association list keyed by a string. -/
def lookupKey {β : Type} (d : String) (m : List (String × β)) : Option β :=
  (m.find? fun p => decide (p.1 = d)).map Prod.snd

/-- The non-default test both persistence functions use:
`in_backoff || current_delay > base_delay`. -/
def nonDefaultState (base_delay : Nat) (s : DomainState) : Prop :=
  s.in_backoff = true ∨ base_delay < s.current_delay

instance nonDefaultState.instDecidable (base_delay : Nat) (s : DomainState) :
    Decidable (nonDefaultState base_delay s) := by
  unfold nonDefaultState; infer_instance

/-- The columns `save_rate_limit_state` binds for a domain. -/
def toSavedRow (s : DomainState) : SavedRow :=
  ⟨s.current_delay, s.in_backoff, s.total_requests, s.rate_limit_hits⟩

/-- `save_rate_limit_state` (`src/scrapers/rate_limiter/persistence.rs`):
iterate the limiter's domains, `INSERT OR REPLACE` a row for each domain
whose state is non-default, then `DELETE FROM rate_limit_state WHERE
in_backoff = 0 AND current_delay_ms <= base_delay_ms`.  (The saved-domain
count the Rust function also returns plays no role in the claims.) -/
def save_rate_limit_state (lim : RateLimiter)
    (db : List (String × SavedRow)) : List (String × SavedRow) :=
  let db1 := lim.domains.foldl
    (fun acc p =>
      if nonDefaultState lim.base_delay p.2 then upsert p.1 (toSavedRow p.2) acc
      else acc)
    db
  db1.filter fun p =>
    !decide (p.2.in_backoff = false ∧ p.2.current_delay_ms ≤ lim.base_delay)

/-- The `DomainState` literal `load_rate_limit_state` builds from a stored
row: saved delay/backoff/counters, `last_request = None` ("can't restore
Instant from DB"), zeroed successes, empty 403 log. -/
def restoredState (row : SavedRow) : DomainState :=
  ⟨row.current_delay_ms, none, 0, [], row.in_backoff,
   row.total_requests, row.rate_limit_hits⟩

/-- `load_rate_limit_state` (`src/scrapers/rate_limiter/persistence.rs`):
read every stored row and, for those with
`in_backoff || delay_ms > base_delay`, insert the restored state into the
limiter's domain map.  (The count the Rust function returns plays no role
in the claims.) -/
def load_rate_limit_state (lim : RateLimiter)
    (db : List (String × SavedRow)) : RateLimiter :=
  let domains2 := db.foldl
    (fun acc p =>
      if p.2.in_backoff = true ∨ lim.base_delay < p.2.current_delay_ms then
        upsert p.1 (restoredState p.2) acc
      else acc)
    lim.domains
  { lim with domains := domains2 }

/-- No row of the list holds URL `(sid, url)` in state `discovered` — the
state of affairs after some claimer's claim of that URL commits. -/
def noDiscRows (sid url : String) (l : List CrawlUrlRow) : Prop :=
  ∀ r ∈ l, r.source_id = sid → r.url = url → r.status ≠ .discovered

/-! ## Concrete fixtures used by witness and counterexample theorems -/

/-- A frontier row with the fields the claims inspect; the remaining
columns are fixed arbitrarily. -/
def mkRow (url sid : String) (st : UrlStatus) (depth : Nat)
    (discovered_at : Int) (retry_count : Nat) (next_retry_at : Option Int) :
    CrawlUrlRow :=
  { url := url, source_id := sid, status := st, discovery_method := "seed",
    parent_url := none, discovery_context := "ctx", depth := depth,
    discovered_at := discovered_at, fetched_at := none,
    retry_count := retry_count, last_error := none,
    next_retry_at := next_retry_at, etag := none, last_modified := none,
    content_hash := none, document_id := none }

/-! ## Helper lemmas about the claim machinery -/

theorem mem_claimCandidates {sid : Option String} {urls : List CrawlUrlRow}
    {r : CrawlUrlRow} :
    r ∈ claimCandidates sid urls ↔
      r ∈ urls ∧ r.status = .discovered ∧ matchesSource sid r := by
  simp [claimCandidates, List.mem_filter]

theorem head?_insertionSort_min {l : List CrawlUrlRow} {r : CrawlUrlRow}
    (h : (List.insertionSort claimLe l).head? = some r) :
    r ∈ l ∧ ∀ x ∈ l, claimLe r x := by
  have hs : List.Sorted claimLe (List.insertionSort claimLe l) :=
    List.sorted_insertionSort claimLe l
  rcases hL : List.insertionSort claimLe l with _ | ⟨a, t⟩
  · rw [hL] at h; cases h
  · rw [hL] at h
    have har : a = r := by cases h; rfl
    subst har
    rw [hL] at hs
    constructor
    · have : a ∈ List.insertionSort claimLe l := by rw [hL]; exact List.mem_cons_self a t
      exact (List.mem_insertionSort claimLe).mp this
    · intro x hx
      have hx2 : x ∈ List.insertionSort claimLe l :=
        (List.mem_insertionSort claimLe).mpr hx
      rw [hL] at hx2
      rcases List.mem_cons.mp hx2 with hxa | hxt
      · exact hxa ▸ claimLe.refl a
      · exact List.rel_of_sorted_cons hs x hxt

theorem mem_setFetchingByKey_of_key {sid url : String} {l : List CrawlUrlRow}
    {x : CrawlUrlRow} (hx : x ∈ l) (hk : x.source_id = sid ∧ x.url = url) :
    { x with status := UrlStatus.fetching } ∈ setFetchingByKey sid url l := by
  unfold setFetchingByKey
  refine List.mem_map.mpr ⟨x, hx, ?_⟩
  simp [hk.1, hk.2]

theorem mem_setFetchingByKey_of_ne {sid url : String} {l : List CrawlUrlRow}
    {x : CrawlUrlRow} (hx : x ∈ l) (hk : ¬(x.source_id = sid ∧ x.url = url)) :
    x ∈ setFetchingByKey sid url l := by
  unfold setFetchingByKey
  refine List.mem_map.mpr ⟨x, hx, ?_⟩
  simp [hk]

theorem mem_of_mem_setFetchingByKey {sid url : String} {l : List CrawlUrlRow}
    {y : CrawlUrlRow} (hy : y ∈ setFetchingByKey sid url l) :
    ∃ x ∈ l, y = x ∨ y = { x with status := UrlStatus.fetching } := by
  unfold setFetchingByKey at hy
  rcases List.mem_map.mp hy with ⟨x, hx, hxy⟩
  refine ⟨x, hx, ?_⟩
  by_cases hk : x.source_id = sid ∧ x.url = url
  · rw [if_pos hk] at hxy; exact Or.inr hxy.symm
  · rw [if_neg hk] at hxy; exact Or.inl hxy.symm

theorem length_setFetchingByKey (sid url : String) (l : List CrawlUrlRow) :
    (setFetchingByKey sid url l).length = l.length := by
  simp [setFetchingByKey]

/-- C1: `claim_pending_url` selects a `discovered` row matching the filter
that is minimal in the order (depth asc, discovered_at asc), sets exactly
the rows with its `(source_id, url)` key to `fetching` in the same
transaction, and returns it with status `Fetching`; when no such row
exists it returns `None` and the frontier is unchanged. -/
theorem claim_pending_url_spec (sid : Option String) (f : Frontier) :
    (∀ u f2, claim_pending_url sid f = (some u, f2) →
      ∃ r ∈ f.urls, r.status = .discovered ∧ matchesSource sid r ∧
        (∀ x ∈ f.urls, x.status = .discovered → matchesSource sid x → claimLe r x) ∧
        u = { r with status := .fetching } ∧
        f2.requests = f.requests ∧ f2.configs = f.configs ∧
        f2.urls.length = f.urls.length ∧
        (∀ x ∈ f.urls,
          (x.source_id = r.source_id ∧ x.url = r.url →
            { x with status := UrlStatus.fetching } ∈ f2.urls) ∧
          (¬(x.source_id = r.source_id ∧ x.url = r.url) → x ∈ f2.urls)) ∧
        (∀ y ∈ f2.urls, ∃ x ∈ f.urls,
          y = x ∨ y = { x with status := UrlStatus.fetching })) ∧
    (∀ f2, claim_pending_url sid f = (none, f2) →
      f2 = f ∧ ∀ x ∈ f.urls, ¬(x.status = .discovered ∧ matchesSource sid x)) := by
  constructor
  · intro u f2 h
    unfold claim_pending_url at h
    rcases hh : (List.insertionSort claimLe (claimCandidates sid f.urls)).head? with _ | r
    · rw [hh] at h; cases h
    · rw [hh] at h
      obtain ⟨hu, hf2⟩ : u = { r with status := .fetching } ∧
          f2 = { f with urls := setFetchingByKey r.source_id r.url f.urls } := by
        cases h; exact ⟨rfl, rfl⟩
      obtain ⟨hrmem, hrmin⟩ := head?_insertionSort_min hh
      obtain ⟨hru, hrd, hrm⟩ := mem_claimCandidates.mp hrmem
      refine ⟨r, hru, hrd, hrm, ?_, hu, by rw [hf2], by rw [hf2], ?_, ?_, ?_⟩
      · intro x hx hxd hxm
        exact hrmin x (mem_claimCandidates.mpr ⟨hx, hxd, hxm⟩)
      · rw [hf2]; exact length_setFetchingByKey r.source_id r.url f.urls
      · intro x hx
        constructor
        · intro hk
          rw [hf2]; exact mem_setFetchingByKey_of_key hx hk
        · intro hk
          rw [hf2]; exact mem_setFetchingByKey_of_ne hx hk
      · intro y hy
        rw [hf2] at hy
        exact mem_of_mem_setFetchingByKey hy
  · intro f2 h
    unfold claim_pending_url at h
    rcases hh : (List.insertionSort claimLe (claimCandidates sid f.urls)).head? with _ | r
    · rw [hh] at h
      obtain hf2 : f2 = f := by cases h; rfl
      refine ⟨hf2, ?_⟩
      intro x hx hcon
      have hcand : x ∈ claimCandidates sid f.urls :=
        mem_claimCandidates.mpr ⟨hx, hcon.1, hcon.2⟩
      have : x ∈ List.insertionSort claimLe (claimCandidates sid f.urls) :=
        (List.mem_insertionSort claimLe).mpr hcand
      rcases hL : List.insertionSort claimLe (claimCandidates sid f.urls) with _ | ⟨a, t⟩
      · rw [hL] at this; cases this
      · rw [hL] at hh; cases hh
    · rw [hh] at h; cases h

/-- C1 witness: the spec theorem applied to a two-row frontier (the
shallower row wins) and, for the `None` branch, to the empty frontier. -/
theorem claim_pending_url_spec_witness :
    (∃ r ∈ (⟨[mkRow "u1" "s" .discovered 1 0 0 none,
              mkRow "u2" "s" .discovered 0 3 0 none], [], []⟩ : Frontier).urls,
      r.status = .discovered ∧ matchesSource (some "s") r ∧
      r.url = "u2") ∧
    (⟨[], [], []⟩ : Frontier) = (⟨[], [], []⟩ : Frontier) := by
  constructor
  · obtain ⟨r, hr, hd, hm, hmin, hu, _⟩ :=
      (claim_pending_url_spec (some "s")
        ⟨[mkRow "u1" "s" .discovered 1 0 0 none,
          mkRow "u2" "s" .discovered 0 3 0 none], [], []⟩).1
        { mkRow "u2" "s" .discovered 0 3 0 none with status := .fetching }
        ⟨[mkRow "u1" "s" .discovered 1 0 0 none,
          { mkRow "u2" "s" .discovered 0 3 0 none with status := .fetching }],
         [], []⟩
        (by decide)
    refine ⟨r, hr, hd, hm, ?_⟩
    have : ({ r with status := UrlStatus.fetching } : CrawlUrlRow).url =
        ({ mkRow "u2" "s" .discovered 0 3 0 none with
            status := UrlStatus.fetching } : CrawlUrlRow).url := by rw [hu]
    simpa using this
  · exact ((claim_pending_url_spec (some "s") ⟨[], [], []⟩).2
      ⟨[], [], []⟩ (by decide)).1

/-- C10: when a row with the same `(source_id, url)` already exists,
`add_url` returns `false` and the whole frontier — the existing row
included, with every one of its fields — is unchanged. -/
theorem add_url_duplicate_noop (cu : CrawlUrlRow) (f : Frontier)
    (h : ∃ r ∈ f.urls, r.source_id = cu.source_id ∧ r.url = cu.url) :
    add_url cu f = (false, f) := by
  rcases h with ⟨r, hr, hk⟩
  have hany : (f.urls.any fun r =>
      decide (r.source_id = cu.source_id ∧ r.url = cu.url)) = true :=
    List.any_eq_true.mpr ⟨r, hr, by simp [hk.1, hk.2]⟩
  simp only [add_url, hany]
  simp

/-- C10 witness: re-adding a fetched URL with different attributes changes
nothing. -/
theorem add_url_duplicate_noop_witness :
    add_url (mkRow "u1" "s" .discovered 4 9 2 (some 7))
      ⟨[mkRow "u1" "s" .fetched 0 0 0 none], [], []⟩ =
      (false, ⟨[mkRow "u1" "s" .fetched 0 0 0 none], [], []⟩) :=
  add_url_duplicate_noop _ _ (by decide)

/-- C5 counterexample: an Exhausted row with `next_retry_at = some 5` is
flipped back to Discovered by `mark_url_for_refresh`, but its
`next_retry_at` is NOT cleared, contradicting the claim's "clears
next_retry_at". -/
theorem mark_url_for_refresh_cex :
    ((mark_url_for_refresh "s" "u1"
        ⟨[mkRow "u1" "s" .exhausted 0 0 3 (some 5)], [], []⟩).urls.map
      CrawlUrlRow.status = [UrlStatus.discovered]) ∧
    ¬ ((mark_url_for_refresh "s" "u1"
        ⟨[mkRow "u1" "s" .exhausted 0 0 3 (some 5)], [], []⟩).urls.map
      CrawlUrlRow.next_retry_at = [none]) := by
  decide

/-- C5 (amended): `mark_url_for_refresh` sets the status of the addressed
row — in particular a Fetched or Exhausted one — back to Discovered and
leaves every other field of the row, `next_retry_at` included, unchanged;
rows with a different key and the other tables are untouched. -/
theorem mark_url_for_refresh_spec (sid url : String) (f : Frontier) :
    (mark_url_for_refresh sid url f).requests = f.requests ∧
    (mark_url_for_refresh sid url f).configs = f.configs ∧
    (mark_url_for_refresh sid url f).urls.length = f.urls.length ∧
    (∀ r ∈ f.urls, r.source_id = sid → r.url = url →
      ∃ r2 ∈ (mark_url_for_refresh sid url f).urls,
        r2.status = .discovered ∧ r2.next_retry_at = r.next_retry_at ∧
        r2.url = r.url ∧ r2.source_id = r.source_id ∧
        r2.discovery_method = r.discovery_method ∧
        r2.parent_url = r.parent_url ∧
        r2.discovery_context = r.discovery_context ∧ r2.depth = r.depth ∧
        r2.discovered_at = r.discovered_at ∧ r2.fetched_at = r.fetched_at ∧
        r2.retry_count = r.retry_count ∧ r2.last_error = r.last_error ∧
        r2.etag = r.etag ∧ r2.last_modified = r.last_modified ∧
        r2.content_hash = r.content_hash ∧ r2.document_id = r.document_id) ∧
    (∀ r ∈ f.urls, ¬(r.source_id = sid ∧ r.url = url) →
      r ∈ (mark_url_for_refresh sid url f).urls) := by
  refine ⟨rfl, rfl, by simp [mark_url_for_refresh], ?_, ?_⟩
  · intro r hr h1 h2
    refine ⟨{ r with status := .discovered }, ?_, ?_⟩
    · unfold mark_url_for_refresh
      refine List.mem_map.mpr ⟨r, hr, ?_⟩
      simp [h1, h2]
    · exact ⟨rfl, rfl, rfl, rfl, rfl, rfl, rfl, rfl, rfl, rfl, rfl, rfl,
        rfl, rfl, rfl, rfl⟩
  · intro r hr hk
    unfold mark_url_for_refresh
    refine List.mem_map.mpr ⟨r, hr, ?_⟩
    simp [hk]

/-- C5 witness: the amended theorem applied to a one-row frontier holding
an Exhausted row with a set `next_retry_at`. -/
theorem mark_url_for_refresh_spec_witness :
    ∃ r2 ∈ (mark_url_for_refresh "s" "u1"
        ⟨[mkRow "u1" "s" .exhausted 0 0 3 (some 5)], [], []⟩).urls,
      r2.status = .discovered ∧
      r2.next_retry_at = (mkRow "u1" "s" .exhausted 0 0 3 (some 5)).next_retry_at := by
  obtain ⟨r2, hmem, hst, hnra, _⟩ :=
    (mark_url_for_refresh_spec "s" "u1"
      ⟨[mkRow "u1" "s" .exhausted 0 0 3 (some 5)], [], []⟩).2.2.2.1
      (mkRow "u1" "s" .exhausted 0 0 3 (some 5)) (by decide) rfl rfl
  exact ⟨r2, hmem, hst, hnra⟩

/-- C4: after `clear_source` no row of the source remains in
`('discovered', 'fetching', 'failed')` and the source's request log is
empty; rows of the source in other statuses, rows of other sources, other
sources' requests and the config table are unchanged; consequently a
`clear_source` following a `(true, true)` answer from
`check_config_changed` leaves zero pending rows for that source. -/
theorem clear_source_spec (sid : String) (f : Frontier) :
    (∀ r ∈ (clear_source sid f).urls, r.source_id = sid → ¬pendingCleared r) ∧
    (∀ q ∈ (clear_source sid f).requests, q.source_id ≠ sid) ∧
    (∀ r ∈ f.urls, ¬(r.source_id = sid ∧ pendingCleared r) →
      r ∈ (clear_source sid f).urls) ∧
    (∀ r ∈ (clear_source sid f).urls, r ∈ f.urls) ∧
    (∀ q ∈ f.requests, q.source_id ≠ sid → q ∈ (clear_source sid f).requests) ∧
    (∀ q ∈ (clear_source sid f).requests, q ∈ f.requests) ∧
    (clear_source sid f).configs = f.configs ∧
    (∀ hash, check_config_changed sid hash f = (true, true) →
      ((clear_source sid f).urls.filter fun r =>
        decide (r.source_id = sid ∧ pendingCleared r)) = []) := by
  have hurl : ∀ r ∈ (clear_source sid f).urls,
      r ∈ f.urls ∧ ¬(r.source_id = sid ∧ pendingCleared r) := by
    intro r hr
    have hm := List.mem_filter.mp hr
    refine ⟨hm.1, of_decide_eq_false ?_⟩
    have hb := hm.2
    rw [Bool.not_eq_true'] at hb
    exact hb
  refine ⟨?_, ?_, ?_, ?_, ?_, ?_, rfl, ?_⟩
  · intro r hr hsid hp
    exact (hurl r hr).2 ⟨hsid, hp⟩
  · intro q hq
    have hm := List.mem_filter.mp hq
    have hb := hm.2
    rw [Bool.not_eq_true'] at hb
    exact of_decide_eq_false hb
  · intro r hr hk
    refine List.mem_filter.mpr ⟨hr, ?_⟩
    rw [Bool.not_eq_true']
    exact decide_eq_false hk
  · intro r hr
    exact (hurl r hr).1
  · intro q hq hk
    refine List.mem_filter.mpr ⟨hq, ?_⟩
    rw [Bool.not_eq_true']
    exact decide_eq_false hk
  · intro q hq
    exact (List.mem_filter.mp hq).1
  · intro hash _
    rw [List.filter_eq_nil_iff]
    intro r hr
    simp only [decide_eq_false (hurl r hr).2]
    exact Bool.false_ne_true

/-- C4 witness: a frontier with a pending row, a fetched row, a foreign
row and a request, where `check_config_changed` answers `(true, true)`. -/
theorem clear_source_spec_witness :
    (∀ r ∈ (clear_source "s"
        ⟨[mkRow "u1" "s" .discovered 0 0 0 none,
          mkRow "u2" "s" .fetched 0 1 0 none,
          mkRow "u3" "t" .failed 0 2 1 none],
         [⟨"s", "req"⟩, ⟨"t", "req2"⟩], [⟨"s", "h0"⟩]⟩).urls,
      r.source_id = "s" → ¬pendingCleared r) ∧
    ((clear_source "s"
        ⟨[mkRow "u1" "s" .discovered 0 0 0 none,
          mkRow "u2" "s" .fetched 0 1 0 none,
          mkRow "u3" "t" .failed 0 2 1 none],
         [⟨"s", "req"⟩, ⟨"t", "req2"⟩], [⟨"s", "h0"⟩]⟩).urls.filter fun r =>
      decide (r.source_id = "s" ∧ pendingCleared r)) = [] := by
  refine ⟨(clear_source_spec "s" _).1, ?_⟩
  exact (clear_source_spec "s" _).2.2.2.2.2.2.2 "h1" (by decide)

/-- C3 counterexample: a Failed row whose `next_retry_at` is NULL is
returned by `get_retryable_urls` although the claim's set — Failed with
`next_retry_at ≤ now` — excludes it (SQL `NULL` compares false; the code
has an explicit `IS NULL OR` the claim lacks). -/
theorem get_retryable_urls_cex :
    (mkRow "u1" "s" .failed 0 0 1 none) ∈
      get_retryable_urls "s" 10 1000
        ⟨[mkRow "u1" "s" .failed 0 0 1 none], [], []⟩ ∧
    ¬ specRetryable "s" 1000 (mkRow "u1" "s" .failed 0 0 1 none) := by
  decide

/-- C3 (amended): `get_retryable_urls` returns, up to `limit` rows and
ordered by `(retry_count ASC, discovered_at ASC)`, exactly the rows of the
source that are Failed with `next_retry_at` unset or `≤ now`, or Exhausted
with `next_retry_at` unset or more than 70 days in the past. -/
theorem get_retryable_urls_spec (sid : String) (limit : Nat) (now : Int)
    (f : Frontier) :
    (get_retryable_urls sid limit now f).length ≤ limit ∧
    List.Sorted retryLe (get_retryable_urls sid limit now f) ∧
    (∀ r ∈ get_retryable_urls sid limit now f,
      r ∈ f.urls ∧ codeRetryable sid now r) ∧
    ((f.urls.filter fun r => decide (codeRetryable sid now r)).length ≤ limit →
      ∀ r ∈ f.urls, codeRetryable sid now r →
        r ∈ get_retryable_urls sid limit now f) := by
  refine ⟨?_, ?_, ?_, ?_⟩
  · simp [get_retryable_urls]
  · exact List.Pairwise.sublist (List.take_sublist _ _)
      (List.sorted_insertionSort retryLe _)
  · intro r hr
    have h1 : r ∈ List.insertionSort retryLe
        (f.urls.filter fun r => decide (codeRetryable sid now r)) :=
      List.mem_of_mem_take hr
    have h2 := (List.mem_insertionSort retryLe).mp h1
    have h3 := List.mem_filter.mp h2
    exact ⟨h3.1, of_decide_eq_true h3.2⟩
  · intro hlen r hr hret
    have hmem : r ∈ List.insertionSort retryLe
        (f.urls.filter fun r => decide (codeRetryable sid now r)) :=
      (List.mem_insertionSort retryLe).mpr
        (List.mem_filter.mpr ⟨hr, decide_eq_true hret⟩)
    have hlen2 : (List.insertionSort retryLe
        (f.urls.filter fun r => decide (codeRetryable sid now r))).length ≤
          limit := by
      rwa [List.length_insertionSort]
    unfold get_retryable_urls
    rwa [List.take_of_length_le hlen2]

/-- C3 witness: the amended theorem applied to a frontier holding a due
Failed row, a not-yet-due Failed row, and a fresh Exhausted row. -/
theorem get_retryable_urls_spec_witness :
    (mkRow "u1" "s" .failed 0 0 1 (some 500)) ∈
      get_retryable_urls "s" 10 1000
        ⟨[mkRow "u1" "s" .failed 0 0 1 (some 500),
          mkRow "u2" "s" .failed 0 1 2 (some 2000),
          mkRow "u3" "s" .exhausted 0 2 5 (some 900)], [], []⟩ := by
  refine (get_retryable_urls_spec "s" 10 1000
    ⟨[mkRow "u1" "s" .failed 0 0 1 (some 500),
      mkRow "u2" "s" .failed 0 1 2 (some 2000),
      mkRow "u3" "s" .exhausted 0 2 5 (some 900)], [], []⟩).2.2.2
    (by decide) _ (by decide) (by decide)

end Foiacquire

namespace Foiacquire

/-- C9 counterexample: at `attempt = 64`, `base_ms = 1000`, the `u64`
multiplication wraps to 0, so `backoff_delay` returns 0 ms instead of the
claimed `min(base * 2 ^ attempt, 60000) = 60000` ms. -/
theorem backoff_delay_overflow_cex :
    backoff_delay 64 1000 ≠ min (1000 * 2 ^ 64) 60000 := by
  decide

/-- C9 (amended): whenever `base_ms * 2 ^ attempt` fits in a `u64` (in
particular for every attempt the retry loop can produce, since
`MAX_RETRIES = 5`), `backoff_delay` is exponential backoff capped at
`MAX_BACKOFF = 60` seconds. -/
theorem backoff_delay_eq_min (attempt base_ms : Nat)
    (h : base_ms * 2 ^ attempt < 2 ^ 64) :
    backoff_delay attempt base_ms = min (base_ms * 2 ^ attempt) 60000 := by
  unfold backoff_delay MAX_BACKOFF_SECS
  rw [Nat.mod_eq_of_lt h]

/-- C9 witness: the amended theorem evaluated at `attempt = 10`,
`base_ms = 1000` (the capped case from the source's own unit test). -/
theorem backoff_delay_eq_min_witness :
    1000 * 2 ^ 10 < 2 ^ 64 ∧ backoff_delay 10 1000 = min (1000 * 2 ^ 10) 60000 :=
  ⟨by decide, backoff_delay_eq_min 10 1000 (by decide)⟩

end Foiacquire

namespace Foiacquire

/-! ## Claim exclusivity: reasoning over serialized claim traces -/

theorem mem_setFetchingByKey_elim {sid url : String} {l : List CrawlUrlRow}
    {y : CrawlUrlRow} (hy : y ∈ setFetchingByKey sid url l) :
    ∃ x ∈ l,
      (x.source_id = sid ∧ x.url = url ∧
        y = { x with status := UrlStatus.fetching }) ∨
      (¬(x.source_id = sid ∧ x.url = url) ∧ y = x) := by
  unfold setFetchingByKey at hy
  rcases List.mem_map.mp hy with ⟨x, hx, hxy⟩
  have hxy2 : (if x.source_id = sid ∧ x.url = url then
      ({ x with status := UrlStatus.fetching } : CrawlUrlRow) else x) = y := hxy
  by_cases hk : x.source_id = sid ∧ x.url = url
  · rw [if_pos hk] at hxy2
    exact ⟨x, hx, Or.inl ⟨hk.1, hk.2, hxy2.symm⟩⟩
  · rw [if_neg hk] at hxy2
    exact ⟨x, hx, Or.inr ⟨hk, hxy2.symm⟩⟩

theorem noDiscRows_setFetchingByKey_self (sid url : String)
    (l : List CrawlUrlRow) : noDiscRows sid url (setFetchingByKey sid url l) := by
  intro r hr h1 h2
  rcases mem_setFetchingByKey_elim hr with ⟨x, hx, hcase⟩
  rcases hcase with ⟨_, _, hy⟩ | ⟨hk, hy⟩
  · rw [hy]
    intro hcon
    cases hcon
  · subst hy
    exact absurd ⟨h1, h2⟩ hk

theorem noDiscRows_setFetchingByKey_mono (s u sid url : String)
    (l : List CrawlUrlRow) (h : noDiscRows sid url l) :
    noDiscRows sid url (setFetchingByKey s u l) := by
  intro r hr h1 h2
  rcases mem_setFetchingByKey_elim hr with ⟨x, hx, hcase⟩
  rcases hcase with ⟨hs, hu, hy⟩ | ⟨_, hy⟩
  · rw [hy]
    intro hcon
    cases hcon
  · subst hy
    exact h r hx h1 h2

theorem noDiscRows_foldl_mono (sid url : String) (rows : List CrawlUrlRow) :
    ∀ l, noDiscRows sid url l →
      noDiscRows sid url
        (rows.foldl (fun acc r => setFetchingByKey r.source_id r.url acc) l) := by
  induction rows with
  | nil => intro l h; exact h
  | cons r0 rest ih =>
      intro l h
      exact ih _ (noDiscRows_setFetchingByKey_mono r0.source_id r0.url sid url l h)

theorem noDiscRows_foldl_self (rows : List CrawlUrlRow) (x : CrawlUrlRow) :
    ∀ l, x ∈ rows →
      noDiscRows x.source_id x.url
        (rows.foldl (fun acc r => setFetchingByKey r.source_id r.url acc) l) := by
  induction rows with
  | nil => intro l hx; cases hx
  | cons r0 rest ih =>
      intro l hx
      rcases List.mem_cons.mp hx with h0 | hmem
      · subst h0
        exact noDiscRows_foldl_mono x.source_id x.url rest _
          (noDiscRows_setFetchingByKey_self x.source_id x.url l)
      · exact ih _ hmem

theorem claim_pending_url_cases (sid : Option String) (f : Frontier) :
    claim_pending_url sid f = (none, f) ∨
    ∃ r, r ∈ claimCandidates sid f.urls ∧
      claim_pending_url sid f =
        (some { r with status := .fetching },
         { f with urls := setFetchingByKey r.source_id r.url f.urls }) := by
  unfold claim_pending_url
  rcases hh : (List.insertionSort claimLe (claimCandidates sid f.urls)).head? with _ | r
  · exact Or.inl rfl
  · refine Or.inr ⟨r, ?_, rfl⟩
    exact (List.mem_insertionSort claimLe).mp (List.mem_of_mem_head? hh)

theorem mem_claimRows {sid : Option String} {limit : Nat} {f : Frontier}
    {x : CrawlUrlRow}
    (hx : x ∈ (List.insertionSort claimLe (claimCandidates sid f.urls)).take limit) :
    x ∈ f.urls ∧ x.status = .discovered ∧ matchesSource sid x := by
  have h1 := List.mem_of_mem_take hx
  have h2 := (List.mem_insertionSort claimLe).mp h1
  exact mem_claimCandidates.mp h2

theorem noDiscRows_applyClaimOp (op : ClaimOp) (f : Frontier) (sid url : String)
    (h : noDiscRows sid url f.urls) :
    noDiscRows sid url (applyClaimOp op f).2.urls := by
  cases op with
  | one sid2 =>
      rcases claim_pending_url_cases sid2 f with hc | ⟨r, hr, hc⟩
      · simp only [applyClaimOp, hc]
        exact h
      · simp only [applyClaimOp, hc]
        exact noDiscRows_setFetchingByKey_mono r.source_id r.url sid url f.urls h
  | many sid2 limit =>
      simp only [applyClaimOp, claim_pending_urls]
      exact noDiscRows_foldl_mono sid url _ f.urls h

theorem returnsUrl_applyClaimOp_eq_false (op : ClaimOp) (f : Frontier)
    (sid url : String) (h : noDiscRows sid url f.urls) :
    returnsUrl sid url (applyClaimOp op f).1 = false := by
  cases op with
  | one sid2 =>
      rcases claim_pending_url_cases sid2 f with hc | ⟨r, hr, hc⟩
      · simp [applyClaimOp, hc, returnsUrl]
      · simp only [applyClaimOp, hc]
        simp only [returnsUrl, List.any_cons, List.any_nil, Bool.or_false]
        apply decide_eq_false
        intro hcon
        rcases mem_claimCandidates.mp hr with ⟨hmem, hdisc, _⟩
        have hk1 : r.source_id = sid := hcon.1
        have hk2 : r.url = url := hcon.2
        exact h r hmem hk1 hk2 hdisc
  | many sid2 limit =>
      simp only [applyClaimOp, claim_pending_urls, returnsUrl]
      apply List.any_eq_false.mpr
      intro y hy
      rcases List.mem_map.mp hy with ⟨x, hx, hxy⟩
      intro hp
      have hk : y.source_id = sid ∧ y.url = url := of_decide_eq_true hp
      obtain ⟨hmem, hdisc, _⟩ := mem_claimRows hx
      have hk1 : x.source_id = sid := by rw [← hxy] at hk; exact hk.1
      have hk2 : x.url = url := by rw [← hxy] at hk; exact hk.2
      exact h x hmem hk1 hk2 hdisc

theorem noDiscRows_after_return (op : ClaimOp) (f : Frontier) (sid url : String)
    (h : returnsUrl sid url (applyClaimOp op f).1 = true) :
    noDiscRows sid url (applyClaimOp op f).2.urls := by
  cases op with
  | one sid2 =>
      rcases claim_pending_url_cases sid2 f with hc | ⟨r, hr, hc⟩
      · simp [applyClaimOp, hc, returnsUrl] at h
      · simp only [applyClaimOp, hc] at h ⊢
        simp only [returnsUrl, List.any_cons, List.any_nil, Bool.or_false] at h
        have hk := of_decide_eq_true h
        have hk1 : r.source_id = sid := hk.1
        have hk2 : r.url = url := hk.2
        rw [← hk1, ← hk2]
        exact noDiscRows_setFetchingByKey_self r.source_id r.url f.urls
  | many sid2 limit =>
      simp only [applyClaimOp, claim_pending_urls, returnsUrl] at h ⊢
      rcases List.any_eq_true.mp h with ⟨y, hy, hp⟩
      rcases List.mem_map.mp hy with ⟨x, hx, hxy⟩
      have hk : y.source_id = sid ∧ y.url = url := of_decide_eq_true hp
      have hk1 : x.source_id = sid := by rw [← hxy] at hk; exact hk.1
      have hk2 : x.url = url := by rw [← hxy] at hk; exact hk.2
      rw [← hk1, ← hk2]
      exact noDiscRows_foldl_self _ x f.urls hx

theorem countP_runClaimOps_eq_zero (ops : List ClaimOp) (sid url : String) :
    ∀ f : Frontier, noDiscRows sid url f.urls →
      (runClaimOps ops f).countP (returnsUrl sid url) = 0 := by
  induction ops with
  | nil => intro f _; rfl
  | cons op rest ih =>
      intro f h
      simp only [runClaimOps, List.countP_cons,
        returnsUrl_applyClaimOp_eq_false op f sid url h, if_false]
      simpa using ih _ (noDiscRows_applyClaimOp op f sid url h)

/-- C2: over any serialized interleaving of concurrent claim calls
(single-row or batch; SQLite's serializable transactions make every
interleaving equivalent to such a serial trace), at most one call returns
the URL `(sid, url)`: once a claim of it commits, its rows are `fetching`,
no later claimer sees it as `discovered`, and no later call returns it. -/
theorem claim_exclusivity (ops : List ClaimOp) (f : Frontier)
    (sid url : String) :
    (runClaimOps ops f).countP (returnsUrl sid url) ≤ 1 := by
  induction ops generalizing f with
  | nil => simp [runClaimOps]
  | cons op rest ih =>
      simp only [runClaimOps, List.countP_cons]
      cases hb : returnsUrl sid url (applyClaimOp op f).1
      · simp [hb]
        exact ih _
      · rw [countP_runClaimOps_eq_zero rest sid url _
          (noDiscRows_after_return op f sid url hb)]
        simp

end Foiacquire

namespace Foiacquire

/-! ## Path safety of the document file handler -/

/-- C6: `serve_file` never serves bytes from outside the documents root,
for every behaviour of the operating system's path resolution (`canon` is
universally quantified, so symlink targets are arbitrary): a path
containing the substring `..`, or absolute, or that fails to canonicalize,
or whose canonical form is not under the canonical documents dir, yields
Not-Found; and whenever bytes are returned they are read from a canonical
path that extends the canonical documents dir. -/
theorem serve_file_path_safety
    (canon : List String → Option (List String))
    (readFile : List String → Option (List Nat))
    (documents_dir : List String) (path : String)
    (cdd : List String) (hc : canon documents_dir = some cdd) :
    (("..".toList <:+: path.toList) ∨ isAbsolutePath path = true →
      serve_file canon readFile documents_dir path = .notFound) ∧
    (canon (cdd ++ pathComponents path) = none →
      serve_file canon readFile documents_dir path = .notFound) ∧
    (∀ cf, canon (cdd ++ pathComponents path) = some cf →
      cdd.isPrefixOf cf = false →
      serve_file canon readFile documents_dir path = .notFound) ∧
    (∀ cf content,
      serve_file canon readFile documents_dir path = .ok cf content →
      cdd.isPrefixOf cf = true ∧ readFile cf = some content ∧
      canon (cdd ++ pathComponents path) = some cf ∧
      ¬("..".toList <:+: path.toList) ∧ isAbsolutePath path = false) := by
  refine ⟨?_, ?_, ?_, ?_⟩
  · intro h
    unfold serve_file
    rw [hc]
    show serveInner canon readFile cdd path = ServeResult.notFound
    unfold serveInner
    have hb : (decide ("..".toList <:+: path.toList) || isAbsolutePath path) = true := by
      rcases h with h | h
      · rw [decide_eq_true h, Bool.true_or]
      · rw [h, Bool.or_true]
    rw [if_pos hb]
  · intro h2
    unfold serve_file
    rw [hc]
    show serveInner canon readFile cdd path = ServeResult.notFound
    unfold serveInner
    by_cases hb : (decide ("..".toList <:+: path.toList) || isAbsolutePath path) = true
    · rw [if_pos hb]
    · rw [if_neg hb]
      unfold serveResolved
      rw [h2]
  · intro cf h2 hpre
    unfold serve_file
    rw [hc]
    show serveInner canon readFile cdd path = ServeResult.notFound
    unfold serveInner
    by_cases hb : (decide ("..".toList <:+: path.toList) || isAbsolutePath path) = true
    · rw [if_pos hb]
    · rw [if_neg hb]
      unfold serveResolved
      rw [h2]
      show servePrefixCheck readFile cdd cf = ServeResult.notFound
      unfold servePrefixCheck
      rw [hpre]
      rw [if_neg Bool.false_ne_true]
  · intro cf content hserve
    unfold serve_file at hserve
    rw [hc] at hserve
    have hs1 : serveInner canon readFile cdd path = ServeResult.ok cf content := hserve
    unfold serveInner at hs1
    by_cases hb : (decide ("..".toList <:+: path.toList) || isAbsolutePath path) = true
    · rw [if_pos hb] at hs1
      cases hs1
    · rw [if_neg hb] at hs1
      unfold serveResolved at hs1
      rcases h2 : canon (cdd ++ pathComponents path) with _ | cf2
      · rw [h2] at hs1
        have hcon : ServeResult.notFound = ServeResult.ok cf content := hs1
        cases hcon
      · rw [h2] at hs1
        have hs2 : servePrefixCheck readFile cdd cf2 = ServeResult.ok cf content := hs1
        unfold servePrefixCheck at hs2
        by_cases hb2 : cdd.isPrefixOf cf2 = true
        · rw [if_pos hb2] at hs2
          rcases h3 : readFile cf2 with _ | c
          · rw [h3] at hs2
            have hcon : ServeResult.internalError = ServeResult.ok cf content := hs2
            cases hcon
          · rw [h3] at hs2
            have hinj : ServeResult.ok cf2 c = ServeResult.ok cf content := hs2
            injection hinj with hcf hcon
            subst hcf
            subst hcon
            have hbf : (decide ("..".toList <:+: path.toList) ||
                isAbsolutePath path) = false := by
              rw [Bool.not_eq_true] at hb
              exact hb
            have hor := Bool.or_eq_false_iff.mp hbf
            refine ⟨hb2, h3, rfl, ?_, hor.2⟩
            intro hdots
            rw [decide_eq_true hdots] at hor
            cases hor.1
        · rw [if_neg hb2] at hs2
          cases hs2

/-- C6 witness: with identity canonicalization over a concrete documents
dir, a clean relative path is served from under the root, and the theorem
instantiates; the Not-Found branch is exercised by a `..` path. -/
theorem serve_file_path_safety_witness :
    (["docs"].isPrefixOf ["docs", "a"] = true ∧
      (fun l : List String => some l) (["docs"] ++ pathComponents "a") =
        some ["docs", "a"]) ∧
    serve_file (fun l => some l) (fun _ => some [7]) ["docs"] "../x" =
      .notFound := by
  constructor
  · have h := (serve_file_path_safety (fun l => some l) (fun _ => some [7])
      ["docs"] "a" ["docs"] rfl).2.2.2 ["docs", "a"] [7] (by decide)
    exact ⟨h.1, h.2.2.1⟩
  · exact (serve_file_path_safety (fun l => some l) (fun _ => some [7])
      ["docs"] "../x" ["docs"] rfl).1 (Or.inl (by decide))

end Foiacquire

namespace Foiacquire

/-! ## Rate limiter: reserved start times are separated and monotone -/

theorem findDomain_map_update (domain : String)
    (g : DomainRateState → DomainRateState)
    (hg : ∀ r, (g r).domain = r.domain) (tbl : List DomainRateState) :
    findDomain domain (tbl.map fun r => if r.domain = domain then g r else r) =
      (findDomain domain tbl).map g := by
  induction tbl with
  | nil => rfl
  | cons r t ih =>
      by_cases h : r.domain = domain
      · simp only [List.map_cons, if_pos h]
        unfold findDomain
        rw [List.find?_cons_of_pos _ (by simp [hg r, h]),
          List.find?_cons_of_pos _ (by simp [h])]
        rfl
      · simp only [List.map_cons, if_neg h]
        unfold findDomain
        rw [List.find?_cons_of_neg _ (by simp [h]),
          List.find?_cons_of_neg _ (by simp [h])]
        exact ih

theorem findDomain_append_single (domain : String)
    (tbl : List DomainRateState) (x : DomainRateState)
    (h : findDomain domain tbl = none) (hx : x.domain = domain) :
    findDomain domain (tbl ++ [x]) = some x := by
  induction tbl with
  | nil =>
      unfold findDomain
      rw [List.nil_append, List.find?_cons_of_pos _ (by simp [hx])]
  | cons r t ih =>
      by_cases hp : r.domain = domain
      · exfalso
        unfold findDomain at h
        rw [List.find?_cons_of_pos _ (by simp [hp])] at h
        cases h
      · unfold findDomain at h ⊢
        rw [List.find?_cons_of_neg _ (by simp [hp])] at h
        rw [List.cons_append, List.find?_cons_of_neg _ (by simp [hp])]
        exact ih h

theorem findDomain_after_acquire (domain : String) (base : Nat) (now : Int)
    (tbl : List DomainRateState) :
    ∃ s2, findDomain domain (acquire domain base now tbl).2 = some s2 ∧
      s2.current_delay_ms = effectiveDelay domain base tbl ∧
      s2.last_request_at = some (now + ((acquire domain base now tbl).1 : Int)) := by
  unfold acquire effectiveDelay
  rcases hf : findDomain domain tbl with _ | s
  · simp only [hf]
    rw [findDomain_map_update domain
      (fun r => { r with last_request_at := some (now + 0),
                         total_requests := r.total_requests + 1 })
      (fun r => rfl) (tbl ++ [DomainRateState.new domain base])]
    rw [findDomain_append_single domain tbl (DomainRateState.new domain base) hf rfl]
    exact ⟨_, rfl, rfl, rfl⟩
  · simp only [hf]
    rw [findDomain_map_update domain
      (fun r => { r with
        last_request_at := some (now + ((s.time_until_ready now : Nat) : Int)),
        total_requests := r.total_requests + 1 })
      (fun r => rfl) tbl, hf]
    exact ⟨_, rfl, rfl, rfl⟩

theorem chain_acquireReservations (domain : String) (base : Nat)
    (nows : List Int) :
    ∀ (tbl : List DomainRateState) (d : Nat) (r0 : Int),
      (∃ s, findDomain domain tbl = some s ∧ s.current_delay_ms = d ∧
        s.last_request_at = some r0) →
      List.Chain (fun a b => a + (d : Int) ≤ b) r0
        (acquireReservations domain base nows tbl) := by
  induction nows with
  | nil => intro tbl d r0 _; exact List.Chain.nil
  | cons n rest ih =>
      rintro tbl d r0 ⟨s, hf, hd, hl⟩
      unfold acquireReservations
      have hw : (acquire domain base n tbl).1 = s.time_until_ready n := by
        unfold acquire
        simp only [hf]
      constructor
      · rw [hw]
        unfold DomainRateState.time_until_ready
        simp only [hl, hd]
        have htn := Int.self_le_toNat (r0 + (d : Int) - n)
        omega
      · obtain ⟨s2, hf2, hd2, hl2⟩ := findDomain_after_acquire domain base n tbl
        have hde : effectiveDelay domain base tbl = d := by
          unfold effectiveDelay
          simp only [hf]
          exact hd
        exact ih _ d _ ⟨s2, hf2, by rw [hd2, hde], hl2⟩

/-- C7: for one domain, the reserved start times written by a serialized
sequence of `acquire` calls (whatever clock values the racing callers
captured) are monotonically non-decreasing, and consecutive reservations
are separated by at least the domain's `current_delay_ms` in effect during
the trace (`acquire` never changes the delay, so it is the delay stored at
the start, or the base delay for an unseen domain). -/
theorem acquire_reservations_separated (domain : String) (base_delay_ms : Nat)
    (nows : List Int) (tbl : List DomainRateState) :
    List.Chain'
      (fun a b => a + (effectiveDelay domain base_delay_ms tbl : Int) ≤ b)
      (acquireReservations domain base_delay_ms nows tbl) ∧
    List.Chain' (fun a b : Int => a ≤ b)
      (acquireReservations domain base_delay_ms nows tbl) := by
  have hchain : List.Chain'
      (fun a b => a + (effectiveDelay domain base_delay_ms tbl : Int) ≤ b)
      (acquireReservations domain base_delay_ms nows tbl) := by
    cases nows with
    | nil => simp [acquireReservations]
    | cons n rest =>
        unfold acquireReservations
        show List.Chain _ _ _
        obtain ⟨s2, hf2, hd2, hl2⟩ :=
          findDomain_after_acquire domain base_delay_ms n tbl
        exact chain_acquireReservations domain base_delay_ms rest _ _ _
          ⟨s2, hf2, hd2, hl2⟩
  refine ⟨hchain, List.Chain'.imp ?_ hchain⟩
  intro a b h
  have hnn : (0 : Int) ≤ (effectiveDelay domain base_delay_ms tbl : Int) :=
    Int.natCast_nonneg _
  omega

end Foiacquire

namespace Foiacquire

/-! ## Rate limiter persistence: save / load round trip -/

theorem lookupKey_upsert_self {β : Type} (d : String) (v : β)
    (m : List (String × β)) : lookupKey d (upsert d v m) = some v := by
  induction m with
  | nil =>
      unfold upsert lookupKey
      rw [List.find?_cons_of_pos _ (by simp)]
      rfl
  | cons p t ih =>
      by_cases hp : p.1 = d
      · unfold upsert
        rw [if_pos hp]
        unfold lookupKey
        rw [List.find?_cons_of_pos _ (by simp)]
        rfl
      · unfold upsert
        rw [if_neg hp]
        unfold lookupKey at ih ⊢
        rw [List.find?_cons_of_neg _ (by simp [hp])]
        exact ih

theorem lookupKey_upsert_other {β : Type} (d d2 : String) (v : β)
    (m : List (String × β)) (hne : d2 ≠ d) :
    lookupKey d2 (upsert d v m) = lookupKey d2 m := by
  induction m with
  | nil =>
      unfold upsert lookupKey
      rw [List.find?_cons_of_neg _ (by simp [Ne.symm hne])]
  | cons p t ih =>
      by_cases hp : p.1 = d
      · unfold upsert
        rw [if_pos hp]
        unfold lookupKey
        rw [List.find?_cons_of_neg _ (by simp [Ne.symm hne]),
          List.find?_cons_of_neg _ (by simp [hp, Ne.symm hne])]
      · unfold upsert
        rw [if_neg hp]
        unfold lookupKey at ih ⊢
        by_cases hp2 : p.1 = d2
        · rw [List.find?_cons_of_pos _ (by simp [hp2]),
            List.find?_cons_of_pos _ (by simp [hp2])]
        · rw [List.find?_cons_of_neg _ (by simp [hp2]),
            List.find?_cons_of_neg _ (by simp [hp2])]
          exact ih

theorem mem_of_lookupKey {β : Type} {d : String} {v : β}
    {m : List (String × β)} (h : lookupKey d m = some v) : (d, v) ∈ m := by
  induction m with
  | nil => cases h
  | cons p t ih =>
      by_cases hp : p.1 = d
      · unfold lookupKey at h
        rw [List.find?_cons_of_pos _ (by simp [hp])] at h
        have hv : p.2 = v := by simpa using h
        have hpd : p = (d, v) := Prod.ext hp hv
        rw [← hpd]
        exact List.mem_cons_self p t
      · unfold lookupKey at h
        rw [List.find?_cons_of_neg _ (by simp [hp])] at h
        exact List.mem_cons_of_mem _ (ih h)

theorem lookupKey_foldl_upsert_not_mem {γ β : Type} (c : String × γ → Prop)
    [DecidablePred c] (g : String × γ → β) (l : List (String × γ)) :
    ∀ (acc : List (String × β)) (d : String), d ∉ l.map Prod.fst →
      lookupKey d
        (l.foldl (fun acc p => if c p then upsert p.1 (g p) acc else acc) acc) =
        lookupKey d acc := by
  induction l with
  | nil => intro acc d _; rfl
  | cons p t ih =>
      intro acc d hd
      simp only [List.map_cons, List.mem_cons] at hd
      push_neg at hd
      obtain ⟨hd1, hd2⟩ := hd
      simp only [List.foldl_cons]
      by_cases hc : c p
      · rw [if_pos hc]
        rw [ih _ d hd2, lookupKey_upsert_other p.1 d (g p) acc hd1]
      · rw [if_neg hc]
        exact ih _ d hd2

theorem lookupKey_foldl_upsert_mem {γ β : Type} (c : String × γ → Prop)
    [DecidablePred c] (g : String × γ → β) (l : List (String × γ)) :
    ∀ (acc : List (String × β)) (d : String) (v : γ),
      (l.map Prod.fst).Nodup → (d, v) ∈ l → c (d, v) →
      lookupKey d
        (l.foldl (fun acc p => if c p then upsert p.1 (g p) acc else acc) acc) =
        some (g (d, v)) := by
  induction l with
  | nil => intro acc d v _ hmem _; cases hmem
  | cons p t ih =>
      intro acc d v hnd hmem hc
      simp only [List.map_cons, List.nodup_cons] at hnd
      obtain ⟨hp_notin, hnd_t⟩ := hnd
      simp only [List.foldl_cons]
      rcases List.mem_cons.mp hmem with heq | hmem_t
      · subst heq
        rw [if_pos hc]
        have hnotin : d ∉ t.map Prod.fst := by simpa using hp_notin
        rw [lookupKey_foldl_upsert_not_mem c g t _ d hnotin]
        exact lookupKey_upsert_self d (g (d, v)) acc
      · by_cases hcp : c p
        · rw [if_pos hcp]
          exact ih _ d v hnd_t hmem_t hc
        · rw [if_neg hcp]
          exact ih _ d v hnd_t hmem_t hc

theorem lookupKey_filter_keep {β : Type} (q : String × β → Bool)
    (m : List (String × β)) :
    ∀ (d : String) (v : β), lookupKey d m = some v → q (d, v) = true →
      lookupKey d (m.filter q) = some v := by
  induction m with
  | nil => intro d v h _; cases h
  | cons p t ih =>
      intro d v h hq
      by_cases hp : p.1 = d
      · unfold lookupKey at h
        rw [List.find?_cons_of_pos _ (by simp [hp])] at h
        have hv : p.2 = v := by simpa using h
        have hpd : p = (d, v) := Prod.ext hp hv
        rw [List.filter_cons, hpd, if_pos hq]
        unfold lookupKey
        rw [List.find?_cons_of_pos _ (by simp)]
        rfl
      · unfold lookupKey at h
        rw [List.find?_cons_of_neg _ (by simp [hp])] at h
        rw [List.filter_cons]
        by_cases hqp : q p = true
        · rw [if_pos hqp]
          unfold lookupKey
          rw [List.find?_cons_of_neg _ (by simp [hp])]
          exact ih d v h hq
        · rw [if_neg hqp]
          exact ih d v h hq

theorem mem_keys_upsert {β : Type} (d x : String) (v : β)
    (m : List (String × β)) (h : x ∈ (upsert d v m).map Prod.fst) :
    x ∈ m.map Prod.fst ∨ x = d := by
  induction m with
  | nil =>
      unfold upsert at h
      simp at h
      exact Or.inr h
  | cons p t ih =>
      by_cases hp : p.1 = d
      · unfold upsert at h
        rw [if_pos hp] at h
        simp only [List.map_cons, List.mem_cons] at h ⊢
        rcases h with h | h
        · exact Or.inr h
        · exact Or.inl (Or.inr h)
      · unfold upsert at h
        rw [if_neg hp] at h
        simp only [List.map_cons, List.mem_cons] at h ⊢
        rcases h with h | h
        · exact Or.inl (Or.inl h)
        · rcases ih h with h2 | h2
          · exact Or.inl (Or.inr h2)
          · exact Or.inr h2

theorem nodup_keys_upsert {β : Type} (d : String) (v : β)
    (m : List (String × β)) (h : (m.map Prod.fst).Nodup) :
    ((upsert d v m).map Prod.fst).Nodup := by
  induction m with
  | nil => simp [upsert]
  | cons p t ih =>
      simp only [List.map_cons, List.nodup_cons] at h
      obtain ⟨hpn, hnt⟩ := h
      by_cases hp : p.1 = d
      · unfold upsert
        rw [if_pos hp]
        simp only [List.map_cons, List.nodup_cons]
        exact ⟨by rw [← hp]; exact hpn, hnt⟩
      · unfold upsert
        rw [if_neg hp]
        simp only [List.map_cons, List.nodup_cons]
        refine ⟨?_, ih hnt⟩
        intro hcon
        rcases mem_keys_upsert d p.1 v t hcon with h2 | h2
        · exact hpn h2
        · exact hp h2

theorem nodup_keys_foldl_upsert {γ β : Type} (c : String × γ → Prop)
    [DecidablePred c] (g : String × γ → β) (l : List (String × γ)) :
    ∀ acc : List (String × β), (acc.map Prod.fst).Nodup →
      ((l.foldl (fun acc p => if c p then upsert p.1 (g p) acc else acc)
        acc).map Prod.fst).Nodup := by
  induction l with
  | nil => intro acc h; exact h
  | cons p t ih =>
      intro acc h
      simp only [List.foldl_cons]
      by_cases hc : c p
      · rw [if_pos hc]
        exact ih _ (nodup_keys_upsert p.1 (g p) acc h)
      · rw [if_neg hc]
        exact ih _ h

/-- C8: `save_rate_limit_state` stores exactly the saved columns of every
domain whose in-memory state is non-default (`in_backoff` or delay above
base), the cleanup delete leaves no stored row with default values, and a
subsequent `load_rate_limit_state` (same base delay) restores for each
such domain the saved `current_delay`, `in_backoff`, `total_requests` and
`rate_limit_hits`, with `last_request = none` and
`consecutive_successes = 0`. -/
theorem save_load_rate_limit_state_spec (lim : RateLimiter)
    (db : List (String × SavedRow))
    (hnd : (lim.domains.map Prod.fst).Nodup)
    (hdb : (db.map Prod.fst).Nodup) :
    (∀ dom s, (dom, s) ∈ lim.domains → nonDefaultState lim.base_delay s →
      lookupKey dom (save_rate_limit_state lim db) = some (toSavedRow s)) ∧
    (∀ p ∈ save_rate_limit_state lim db,
      p.2.in_backoff = true ∨ lim.base_delay < p.2.current_delay_ms) ∧
    (∀ lim0 : RateLimiter, lim0.base_delay = lim.base_delay →
      ∀ dom s, (dom, s) ∈ lim.domains → nonDefaultState lim.base_delay s →
        lookupKey dom
          (load_rate_limit_state lim0 (save_rate_limit_state lim db)).domains =
          some ⟨s.current_delay, none, 0, [], s.in_backoff,
                s.total_requests, s.rate_limit_hits⟩) := by
  have hpart1 : ∀ dom s, (dom, s) ∈ lim.domains →
      nonDefaultState lim.base_delay s →
      lookupKey dom (save_rate_limit_state lim db) = some (toSavedRow s) := by
    intro dom s hmem hndef
    have h1 : lookupKey dom (lim.domains.foldl
        (fun acc p => if nonDefaultState lim.base_delay p.2 then
          upsert p.1 (toSavedRow p.2) acc else acc) db) = some (toSavedRow s) :=
      lookupKey_foldl_upsert_mem
        (fun p => nonDefaultState lim.base_delay p.2)
        (fun p => toSavedRow p.2) lim.domains db dom s hnd hmem hndef
    have hnc : ¬(s.in_backoff = false ∧ s.current_delay ≤ lim.base_delay) := by
      rcases hndef with hb | hd
      · intro hcon
        rw [hb] at hcon
        cases hcon.1
      · intro hcon
        omega
    have hq : (!decide ((toSavedRow s).in_backoff = false ∧
        (toSavedRow s).current_delay_ms ≤ lim.base_delay)) = true := by
      rw [Bool.not_eq_true']
      exact decide_eq_false hnc
    exact lookupKey_filter_keep _ _ dom (toSavedRow s) h1 hq
  refine ⟨hpart1, ?_, ?_⟩
  · intro p hp
    have h2 := List.mem_filter.mp hp
    have h3 := h2.2
    rw [Bool.not_eq_true'] at h3
    have h4 := of_decide_eq_false h3
    cases hbo : p.2.in_backoff
    · refine Or.inr ?_
      have h5 : ¬(p.2.current_delay_ms ≤ lim.base_delay) := by
        intro hcon
        exact h4 ⟨hbo, hcon⟩
      omega
    · exact Or.inl rfl
  · intro lim0 hbase dom s hmem hndef
    have hsave := hpart1 dom s hmem hndef
    have hmem2 : (dom, toSavedRow s) ∈ save_rate_limit_state lim db :=
      mem_of_lookupKey hsave
    have hnddb1 : (((lim.domains.foldl
        (fun acc p => if nonDefaultState lim.base_delay p.2 then
          upsert p.1 (toSavedRow p.2) acc else acc) db)).map Prod.fst).Nodup :=
      nodup_keys_foldl_upsert (fun p => nonDefaultState lim.base_delay p.2)
        (fun p => toSavedRow p.2) lim.domains db hdb
    have hnd2 : ((save_rate_limit_state lim db).map Prod.fst).Nodup := by
      refine List.Nodup.sublist ?_ hnddb1
      exact List.Sublist.map Prod.fst (List.filter_sublist _)
    have hcond : (toSavedRow s).in_backoff = true ∨
        lim0.base_delay < (toSavedRow s).current_delay_ms := by
      rw [hbase]
      exact hndef
    have h4 : lookupKey dom ((save_rate_limit_state lim db).foldl
        (fun acc p => if p.2.in_backoff = true ∨
            lim0.base_delay < p.2.current_delay_ms then
          upsert p.1 (restoredState p.2) acc else acc) lim0.domains) =
        some (restoredState (toSavedRow s)) :=
      lookupKey_foldl_upsert_mem
        (fun p => p.2.in_backoff = true ∨
          lim0.base_delay < p.2.current_delay_ms)
        (fun p => restoredState p.2) (save_rate_limit_state lim db)
        lim0.domains dom (toSavedRow s) hnd2 hmem2 hcond
    exact h4

/-- C8 witness: one backed-off domain saved into an empty store and
reloaded into a fresh limiter with the same base delay. -/
theorem save_load_rate_limit_state_spec_witness :
    lookupKey "a.com" (save_rate_limit_state
      ⟨[("a.com", ⟨4000, some 5, 2, [], true, 10, 3⟩)], 1000⟩ []) =
      some ⟨4000, true, 10, 3⟩ ∧
    lookupKey "a.com" (load_rate_limit_state ⟨[], 1000⟩
      (save_rate_limit_state
        ⟨[("a.com", ⟨4000, some 5, 2, [], true, 10, 3⟩)], 1000⟩ [])).domains =
      some ⟨4000, none, 0, [], true, 10, 3⟩ := by
  have h := save_load_rate_limit_state_spec
    ⟨[("a.com", ⟨4000, some 5, 2, [], true, 10, 3⟩)], 1000⟩ []
    (by decide) (by decide)
  exact ⟨h.1 "a.com" ⟨4000, some 5, 2, [], true, 10, 3⟩ (by decide) (by decide),
    h.2.2 ⟨[], 1000⟩ rfl "a.com" ⟨4000, some 5, 2, [], true, 10, 3⟩
      (by decide) (by decide)⟩

end Foiacquire
